import Mathlib

/-!
Verification of the diff decomposition and review-aggregation engine of
`reviewer.py` (a local AI pull-request reviewer).

The Python source is shallowly embedded: strings become `List Char`, the
regular-expression split used by `split_into_hunks` is modelled by an
executable matcher with Python `re` semantics (MULTILINE anchoring, lazy
quantifier, `.` not matching a newline while `\s` does), and the network
call of `ask_llm` is abstracted by an oracle argument giving the extracted
response text per request.  The class `\s` is modelled over the ASCII
whitespace characters (all inputs of interest are ASCII).
-/

namespace Reviewer

/-- ASCII model of Python's regex class `\s` (and of `str.strip`'s default
whitespace set). -/
def isPySpace (c : Char) : Bool :=
  c = ' ' || c = '\t' || c = '\n' || c = '\r' || c = '\x0b' || c = '\x0c'

/-- The literal token the prompt asks the model to reply with. -/
def lgtm : List Char := ['L', 'G', 'T', 'M']

/-- Python's substring test `needle in hay`. -/
def strContains (hay needle : List Char) : Bool :=
  match hay with
  | [] => needle.isEmpty
  | _ :: t => needle.isPrefixOf hay || strContains t needle

/-- Python's `str.strip()` (strip leading and trailing whitespace). -/
def pyStrip (s : List Char) : List Char :=
  ((s.dropWhile isPySpace).reverse.dropWhile isPySpace).reverse

/-! ## The regex model

`split_into_hunks` calls `re.split(r'(^@@\s.*?\s@@)', diff, flags=re.MULTILINE)`.
A match starts at a line start (position 0 or right after a newline),
consumes `@@`, one whitespace character, the shortest run of non-newline
characters, one whitespace character and `@@`.  Note `\s` also matches a
newline, so a match can span a line boundary. -/

/-- Does the text start with the two characters `@@`? -/
def startsWithAtAt : List Char → Bool
  | c1 :: c2 :: _ => c1 = '@' && c2 = '@'
  | _ => false

/-- Lazy search for the closing `\s@@` of the hunk-header pattern:
returns the least `k` such that the `k` characters skipped are not
newlines and position `k` starts `\s@@`. -/
def findK : List Char → Option Nat
  | [] => none
  | c :: rest =>
    if isPySpace c && startsWithAtAt rest then some 0
    else if c = '\n' then none
    else (findK rest).map (· + 1)

/-- Try to match `@@\s.*?\s@@` at the start of `t`; on success return the
matched text and the remainder. -/
def matchAt (t : List Char) : Option (List Char × List Char) :=
  match t with
  | c1 :: c2 :: w :: rest =>
    if c1 = '@' && c2 = '@' && isPySpace w then
      match findK rest with
      | some k => some (c1 :: c2 :: w :: rest.take (k + 3), rest.drop (k + 3))
      | none => none
    else none
  | _ => none

/-- Leftmost match of the MULTILINE-anchored pattern in `s`; `atLS` records
whether position 0 of `s` is a line start.  Returns the text before the
match, the match, and the remainder. -/
def findMatch : List Char → Bool → Option (List Char × List Char × List Char)
  | [], _ => none
  | c :: t, atLS =>
    match if atLS then matchAt (c :: t) else none with
    | some (m, r) => some ([], m, r)
    | none =>
      match findMatch t (c = '\n') with
      | some (b, m, r) => some (c :: b, m, r)
      | none => none

/-- Fuelled `re.split` with the capture group kept: alternating list
`[before₀, match₁, between₁, …, matchₙ, tail]`.  A match never ends in a
newline, so after the first match the scanner is never at a line start. -/
def reSplitF : Nat → List Char → Bool → List (List Char)
  | 0, s, _ => [s]
  | fuel + 1, s, atLS =>
    match findMatch s atLS with
    | none => [s]
    | some (b, m, r) => b :: m :: reSplitF fuel r false

/-- The call `re.split(r'(^@@\s.*?\s@@)', s, flags=re.MULTILINE)`. -/
def reSplitPy (s : List Char) : List (List Char) :=
  reSplitF (s.length + 1) s true

/-- Number of matches of the split pattern in `s` (fuelled). -/
def countMatchesF : Nat → List Char → Bool → Nat
  | 0, _, _ => 0
  | fuel + 1, s, atLS =>
    match findMatch s atLS with
    | none => 0
    | some (_, _, r) => countMatchesF fuel r false + 1

/-- Number of matches of the split pattern in the whole text. -/
def countMatchesPy (s : List Char) : Nat :=
  countMatchesF (s.length + 1) s true

/-- The reassembly loop of `split_into_hunks`: for each
(header, code) pair of the split list, emit `file_header + "\n" + header + code`
(the `[header]` arm mirrors the `if i+1 < len(hunks)` guard with `code = ""`). -/
def assembleHunks (file_header : List Char) : List (List Char) → List (List Char)
  | header :: code :: rest =>
    (file_header ++ '\n' :: (header ++ code)) :: assembleHunks file_header rest
  | [header] => [file_header ++ '\n' :: (header ++ [])]
  | [] => []

/-- The method `AIReviewer.split_into_hunks` (reviewer.py lines 44-64). -/
def split_into_hunks (diff_content : List Char) : List (List Char) :=
  let hunks := reSplitPy diff_content
  if 1 < hunks.length then
    assembleHunks (hunks.headD []) hunks.tail
  else [diff_content]

/-! ## Per-line hunk-header lines

The specification speaks of the "per-line pattern `^@@ ... @@`": a line of
the text on which the hunk-header pattern matches (starting at the line's
first character).  Lines are the segments between newline characters. -/

/-- Split a text on newline characters (Python `s.split("\n")`). -/
def splitOnNewline : List Char → List (List Char)
  | [] => [[]]
  | c :: t =>
    if c = '\n' then [] :: splitOnNewline t
    else
      match splitOnNewline t with
      | [] => [[c]]
      | l :: ls => (c :: l) :: ls

/-- Does the hunk-header pattern match at the start of this single line? -/
def lineIsHunkHeader (l : List Char) : Bool :=
  (matchAt l).isSome

/-- Number of lines of `s` matching the per-line pattern `^@@ ... @@`. -/
def hunkHeaderLineCount (s : List Char) : Nat :=
  ((splitOnNewline s).filter lineIsHunkHeader).length

/-! ## Review client (`ask_llm`, reviewer.py lines 66-101)

The HTTP exchange is abstracted: an outcome is either a parsed JSON reply
(the list of `choices[i].message.content` strings plus the top-level
`response` field, each defaulting to the empty string) or an exception
with its message.  `ask_llm` turns an outcome into the text the caller
sees. -/

inductive LLMOutcome where
  | ok (choices : List (List Char)) (response : List Char)
  | error (msg : List Char)

/-- Extraction and error handling of `ask_llm` (lines 91-101): the first
choice's content if the choice list is nonempty, else the fallback
`response` field (both stripped); every exception is caught and rendered
as `"LLM Error: " + str(e)`. -/
def ask_llm : LLMOutcome → List Char
  | .ok choices response =>
    match choices with
    | c :: _ => pyStrip c
    | [] => pyStrip response
  | .error msg => "LLM Error: ".toList ++ msg

/-- The CLEAN test used at lines 135 and 143: the review text contains the
literal substring `LGTM`. -/
def verdictIsClean (review : List Char) : Bool :=
  strContains review lgtm

/-! ## File review orchestration (`generate_report`, reviewer.py lines 122-147)

The per-request behaviour of the inference endpoint is an oracle
`llm : List Char → Bool → List Char` mapping (diff text, is-partial flag)
to the extracted response text of `ask_llm` for that request. -/

/-- Decimal digit character (used to model Python's `str(i+1)`). -/
def decDigit (n : Nat) : Char :=
  if n = 0 then '0' else if n = 1 then '1' else if n = 2 then '2'
  else if n = 3 then '3' else if n = 4 then '4' else if n = 5 then '5'
  else if n = 6 then '6' else if n = 7 then '7' else if n = 8 then '8'
  else if n = 9 then '9' else '?'

/-- Fuelled decimal rendering of a natural number. -/
def natToStrAux : Nat → Nat → List Char → List Char
  | 0, _, acc => acc
  | fuel + 1, n, acc =>
    if n < 10 then decDigit n :: acc
    else natToStrAux fuel (n / 10) (decDigit (n % 10) :: acc)

/-- Python `str(n)` for a natural number. -/
def natToStr (n : Nat) : List Char := natToStrAux (n + 1) n []

/-- The label prepended to a flagged hunk's review:
`f"**Hunk {i}:**\n"` (line 136). -/
def hunkTag (i : Nat) : List Char :=
  "**Hunk ".toList ++ natToStr i ++ ":**\n".toList

/-- The separator `"\n\n"` used to join flagged hunk comments (line 138). -/
def blankSep : List Char := ['\n', '\n']

/-- The `file_comments` accumulation of the hunk loop (lines 130-136):
for each hunk, ask the oracle, and append the labelled review when it
does not contain `LGTM`. -/
def file_comments (llm : List Char → Bool → List Char)
    (hunks : List (List Char)) : List (List Char) :=
  hunks.enum.foldl
    (fun acc p =>
      if verdictIsClean (llm p.2 true) then acc
      else acc ++ [hunkTag (p.1 + 1) ++ llm p.2 true]) []

/-- The `final_review` value computed by the hunk loop (line 138):
`"\n\n".join(file_comments) if file_comments else "LGTM"`. -/
def finalReviewOfHunks (llm : List Char → Bool → List Char)
    (hunks : List (List Char)) : List Char :=
  let cs := file_comments llm hunks
  if cs.isEmpty then lgtm else List.intercalate blankSep cs

/-- The per-file `final_review` of `generate_report` (lines 127-140):
decompose into hunks when the raw diff exceeds `CHUNK_LIMIT`, else a
single whole-text request. -/
def reviewFile (chunkLimit : Nat) (llm : List Char → Bool → List Char)
    (raw_diff : List Char) : List Char :=
  if chunkLimit < raw_diff.length then
    finalReviewOfHunks llm (split_into_hunks raw_diff)
  else llm raw_diff false

/-- The sequence of `ask_llm` requests (diff text, is-partial flag) issued
for one file, in order. -/
def reviewFileCalls (chunkLimit : Nat) (raw_diff : List Char) :
    List (List Char × Bool) :=
  if chunkLimit < raw_diff.length then
    (split_into_hunks raw_diff).map (fun h => (h, true))
  else [(raw_diff, false)]

/-! ## Run orchestration and report (lines 122-147 and 156-166) -/

/-- The report entry appended for a flagged file (line 144):
`f"## \x60{file_name}\x60\n{final_review}\n"`. -/
def reportEntry (file_name final_review : List Char) : List Char :=
  "## `".toList ++ file_name ++ "`\n".toList ++ final_review ++ ['\n']

/-- The `report_lines` accumulated over the changed files (lines 122-147).
The oracle takes the file name as well, since each request names the file. -/
def report_lines (chunkLimit : Nat)
    (llm : List Char → List Char → Bool → List Char)
    (diffOf : List Char → List Char)
    (files : List (List Char)) : List (List Char) :=
  files.foldl
    (fun acc f =>
      if verdictIsClean (reviewFile chunkLimit (llm f) (diffOf f)) then acc
      else acc ++ [reportEntry f (reviewFile chunkLimit (llm f) (diffOf f))]) []

/-- The method `save_report` (lines 156-166): when the report is empty no artifact is
written (`none`); otherwise the report text. -/
def save_report (source_branch : List Char) (lines : List (List Char)) :
    Option (List Char) :=
  if lines.isEmpty then none
  else some ("# AI Code Review: ".toList ++ source_branch ++ "\n\n".toList
    ++ List.intercalate "\n---\n".toList lines)

/-- The console notification printed at the end of the run: the distinct
"no issues" message when the report is empty, else the completion message. -/
def runEndMessage (lines : List (List Char)) : List Char :=
  if lines.isEmpty then " No issues found. The code looks great!".toList
  else "Review Complete! Report saved to: PR_REVIEW.md".toList

/-! ## Name-scope facts for the decomposed-path progress update

Line 133 of reviewer.py reads
`progress.update(task, description=f"Reviewing {filename} (Hunk {i+1}/{len(hunks)})...")`.
The names bound in the enclosing scopes of that expression (module globals
of reviewer.py, including the script-entry assignments, and the locals of
`generate_report`) are listed below; Python resolves a name at use time
against these scopes plus the builtins, and `filename` occurs in none of
them (the loop variable is `file_name`). -/

/-- Module-level and `generate_report`-local names bound in reviewer.py. -/
def generateReportScopeNames : List String :=
  ["sys", "subprocess", "requests", "os", "re", "load_dotenv", "Console",
   "Markdown", "Progress", "SpinnerColumn", "TextColumn", "OLLAMA_URL",
   "AI_MODEL", "CHUNK_LIMIT", "console", "AIReviewer", "target_branch",
   "source_branch", "reviewer", "self", "merge_base", "files", "progress",
   "task", "file_name", "raw_diff", "hunks", "file_comments", "i", "hunk",
   "review", "final_review"]

/-- The names referenced by the progress-update expression at line 133. -/
def hunkProgressUpdateNames : List String :=
  ["progress", "task", "filename", "i", "len", "hunks"]

/-! ## Splitter lemmas -/

theorem matchAt_append {t m r : List Char} (h : matchAt t = some (m, r)) :
    m ++ r = t ∧ m ≠ [] := by
  match t with
  | [] => simp [matchAt] at h
  | [c1] => simp [matchAt] at h
  | [c1, c2] => simp [matchAt] at h
  | c1 :: c2 :: w :: rest =>
    simp only [matchAt] at h
    split at h
    · cases hk : findK rest with
      | none => rw [hk] at h; simp at h
      | some k =>
        rw [hk] at h
        simp only [Option.some.injEq, Prod.mk.injEq] at h
        obtain ⟨hm, hr⟩ := h
        subst hm; subst hr
        refine ⟨?_, by simp⟩
        simp [List.take_append_drop]
    · simp at h

theorem findMatch_append :
    ∀ (s : List Char) (atLS : Bool) {b m r : List Char},
      findMatch s atLS = some (b, m, r) → b ++ m ++ r = s ∧ m ≠ [] := by
  intro s
  induction s with
  | nil => intro atLS b m r h; simp [findMatch] at h
  | cons c t ih =>
    intro atLS b m r h
    simp only [findMatch] at h
    cases hma : (if atLS then matchAt (c :: t) else none) with
    | some p =>
      rw [hma] at h
      obtain ⟨m1, r1⟩ := p
      simp only [Option.some.injEq, Prod.mk.injEq] at h
      obtain ⟨hb, hm, hr⟩ := h
      have hmt : matchAt (c :: t) = some (m1, r1) := by
        cases atLS with
        | false => simp at hma
        | true => simpa using hma
      obtain ⟨h1, h2⟩ := matchAt_append hmt
      refine ⟨?_, ?_⟩
      · rw [← hb, ← hm, ← hr]; simpa using h1
      · rw [← hm]; exact h2
    | none =>
      rw [hma] at h
      cases hf : findMatch t (c = '\n') with
      | none => rw [hf] at h; simp at h
      | some p =>
        obtain ⟨b1, m1, r1⟩ := p
        rw [hf] at h
        simp only [Option.some.injEq, Prod.mk.injEq] at h
        obtain ⟨hb, hm, hr⟩ := h
        subst hb; subst hm; subst hr
        obtain ⟨h1, h2⟩ := ih _ hf
        exact ⟨by simpa using congrArg (c :: ·) h1, h2⟩

theorem findMatch_rest_length {s : List Char} {atLS : Bool} {b m r : List Char}
    (h : findMatch s atLS = some (b, m, r)) : r.length < s.length := by
  obtain ⟨h1, h2⟩ := findMatch_append s atLS h
  have hlen : (b ++ m ++ r).length = s.length := congrArg List.length h1
  simp only [List.length_append] at hlen
  have hm : 1 ≤ m.length := by
    cases m with
    | nil => simp at h2
    | cons _ _ => simp
  omega

theorem reSplitF_flatten :
    ∀ (fuel : Nat) (s : List Char) (atLS : Bool), s.length < fuel →
      (reSplitF fuel s atLS).flatten = s := by
  intro fuel
  induction fuel with
  | zero => intro s atLS h; omega
  | succ f ih =>
    intro s atLS h
    simp only [reSplitF]
    cases hf : findMatch s atLS with
    | none => simp
    | some p =>
      obtain ⟨b, m, r⟩ := p
      have hlt : r.length < s.length := findMatch_rest_length hf
      have hs : b ++ m ++ r = s := (findMatch_append s atLS hf).1
      simp only [List.flatten_cons]
      rw [ih r false (by omega)]
      simpa [List.append_assoc] using hs

theorem reSplitF_length :
    ∀ (fuel : Nat) (s : List Char) (atLS : Bool), s.length < fuel →
      (reSplitF fuel s atLS).length = 2 * countMatchesF fuel s atLS + 1 := by
  intro fuel
  induction fuel with
  | zero => intro s atLS h; omega
  | succ f ih =>
    intro s atLS h
    simp only [reSplitF, countMatchesF]
    cases hf : findMatch s atLS with
    | none => simp
    | some p =>
      obtain ⟨b, m, r⟩ := p
      have hlt : r.length < s.length := findMatch_rest_length hf
      simp only [List.length_cons]
      rw [ih r false (by omega)]
      ring

/-- Dropping the repeated preamble (the file header plus the inserted
newline) from an assembled unit leaves the header-and-content block. -/
theorem drop_preamble (fh x : List Char) :
    (fh ++ '\n' :: x).drop (fh.length + 1) = x := by
  induction fh with
  | nil => simp
  | cons c t ih =>
    simp only [List.length_cons, List.cons_append, List.drop_succ_cons]
    exact ih

/-- Master lemma for the reassembly loop: applied to a match followed by
the remaining alternating split pieces, it produces one unit per match,
and stripping each unit's preamble and concatenating recovers the text
from the match on. -/
theorem assembleHunks_spec :
    ∀ (fuel : Nat) (r m fh : List Char), r.length < fuel →
      (assembleHunks fh (m :: reSplitF fuel r false)).length
          = countMatchesF fuel r false + 1 ∧
        ((assembleHunks fh (m :: reSplitF fuel r false)).map
            (fun u => u.drop (fh.length + 1))).flatten = m ++ r := by
  intro fuel
  induction fuel with
  | zero => intro r m fh h; omega
  | succ f ih =>
    intro r m fh h
    simp only [reSplitF, countMatchesF]
    cases hf : findMatch r false with
    | none =>
      simp [assembleHunks, drop_preamble]
    | some p =>
      obtain ⟨b, m2, r2⟩ := p
      have hlt : r2.length < r.length := findMatch_rest_length hf
      have hr : b ++ m2 ++ r2 = r := (findMatch_append r false hf).1
      obtain ⟨ihL, ihF⟩ := ih r2 m2 fh (by omega)
      constructor
      · simp only [assembleHunks, List.length_cons]
        rw [ihL]
      · simp only [assembleHunks, List.map_cons, List.flatten_cons,
          drop_preamble]
        rw [ihF]
        rw [← hr]
        simp [List.append_assoc]

theorem countMatchesPy_eq_zero_iff {s : List Char} :
    countMatchesPy s = 0 ↔ findMatch s true = none := by
  unfold countMatchesPy
  cases hf : findMatch s true with
  | none => simp [countMatchesF, hf]
  | some p => obtain ⟨b, m, r⟩ := p; simp [countMatchesF, hf]

theorem countMatchesPy_succ {s b m r : List Char}
    (h : findMatch s true = some (b, m, r)) :
    countMatchesPy s = countMatchesF s.length r false + 1 := by
  unfold countMatchesPy
  simp [countMatchesF, h]

theorem reSplitPy_of_some {s b m r : List Char}
    (h : findMatch s true = some (b, m, r)) :
    reSplitPy s = b :: m :: reSplitF s.length r false := by
  unfold reSplitPy
  simp [reSplitF, h]

theorem split_into_hunks_of_some {s b m r : List Char}
    (h : findMatch s true = some (b, m, r)) :
    split_into_hunks s = assembleHunks b (m :: reSplitF s.length r false) := by
  unfold split_into_hunks
  rw [reSplitPy_of_some h]
  simp

theorem split_into_hunks_of_none {s : List Char}
    (h : findMatch s true = none) : split_into_hunks s = [s] := by
  unfold split_into_hunks reSplitPy
  simp [reSplitF, h]

/-- C1 (amended): whenever the split pattern matches at least once,
`split_into_hunks` produces exactly one unit per match of the pattern, and
concatenating each unit's change block — the unit minus the repeated
preamble (the shared file header plus the inserted newline) — in output
order reconstructs the original text from the first match to the end
exactly. -/
theorem hunk_split_lossless (diff : List Char) (h : 1 ≤ countMatchesPy diff) :
    (split_into_hunks diff).length = countMatchesPy diff ∧
    ∃ pre m r, findMatch diff true = some (pre, m, r) ∧
      diff = pre ++ m ++ r ∧
      ((split_into_hunks diff).map
          (fun u => u.drop (pre.length + 1))).flatten = diff.drop pre.length := by
  cases hf : findMatch diff true with
  | none =>
    rw [countMatchesPy_eq_zero_iff.mpr hf] at h
    omega
  | some p =>
    obtain ⟨b, m, r⟩ := p
    have hlt : r.length < diff.length := findMatch_rest_length hf
    have hdiff : b ++ m ++ r = diff := (findMatch_append diff true hf).1
    obtain ⟨aL, aF⟩ := assembleHunks_spec diff.length r m b hlt
    have hunits := split_into_hunks_of_some hf
    constructor
    · rw [hunits, aL, countMatchesPy_succ hf]
    · refine ⟨b, m, r, rfl, hdiff.symm, ?_⟩
      rw [hunits, aF, ← hdiff, List.append_assoc, List.drop_left]

/-- C9 (amended): a diff whose text contains exactly one match of the hunk
pattern splits into exactly one unit, equal to the leading segment, an
inserted newline, the hunk header and its content — the original input
with one extra newline between the leading segment and the header. -/
theorem single_hunk_unit (diff : List Char) (h : countMatchesPy diff = 1) :
    ∃ pre m r, findMatch diff true = some (pre, m, r) ∧
      diff = pre ++ m ++ r ∧
      split_into_hunks diff = [pre ++ '\n' :: (m ++ r)] := by
  cases hf : findMatch diff true with
  | none =>
    rw [countMatchesPy_eq_zero_iff.mpr hf] at h
    omega
  | some p =>
    obtain ⟨b, m, r⟩ := p
    have hlt : r.length < diff.length := findMatch_rest_length hf
    have hdiff : b ++ m ++ r = diff := (findMatch_append diff true hf).1
    have hc : countMatchesF diff.length r false = 0 := by
      have := countMatchesPy_succ hf
      omega
    obtain ⟨f, hfu⟩ : ∃ f, diff.length = f + 1 := ⟨diff.length - 1, by omega⟩
    have hnone : findMatch r false = none := by
      rw [hfu] at hc
      cases h2 : findMatch r false with
      | none => rfl
      | some q =>
        obtain ⟨b2, m2, r2⟩ := q
        rw [countMatchesF, h2] at hc
        simp at hc
    have hsplit : reSplitF diff.length r false = [r] := by
      rw [hfu]
      simp [reSplitF, hnone]
    refine ⟨b, m, r, rfl, hdiff.symm, ?_⟩
    rw [split_into_hunks_of_some hf, hsplit]
    simp [assembleHunks]

/-! ## Substring lemmas

The file-level CLEAN check re-scans the merged commentary for `LGTM`.
The key invariant is that the glue added by the merge (hunk labels,
decimal indices, blank-line separators) is made of characters that do not
occur in `LGTM`, so no occurrence of the token can be created by the
merge. -/

theorem strContains_eq_false_of_disjoint {n : List Char} (s : List Char)
    (hn : n ≠ []) (h : ∀ c ∈ s, ∀ d ∈ n, c ≠ d) : strContains s n = false := by
  induction s with
  | nil =>
    cases n with
    | nil => exact absurd rfl hn
    | cons n0 n' => simp [strContains]
  | cons c t ih =>
    cases n with
    | nil => exact absurd rfl hn
    | cons n0 n' =>
      have hne : (n0 == c) = false := by
        have hcd := h c (by simp) n0 (by simp)
        simp only [beq_eq_false_iff_ne, ne_eq]
        exact fun e => hcd e.symm
      have ht : strContains t (n0 :: n') = false :=
        ih (fun x hx d hd => h x (by simp [hx]) d hd)
      simp [strContains, List.isPrefixOf, hne, ht]

theorem isPrefixOf_append_cons {n : List Char} :
    ∀ (a : List Char) (c : Char) (b : List Char),
      n.isPrefixOf (a ++ c :: b) = true → n.isPrefixOf a = true ∨ c ∈ n := by
  induction n with
  | nil => intro a c b _; left; simp [List.isPrefixOf]
  | cons n0 n' ih =>
    intro a c b h
    cases a with
    | nil =>
      simp only [List.nil_append, List.isPrefixOf, Bool.and_eq_true,
        beq_iff_eq] at h
      right
      simp [h.1]
    | cons a0 a' =>
      simp only [List.cons_append, List.isPrefixOf, Bool.and_eq_true] at h
      obtain ⟨h1, h2⟩ := h
      rcases ih a' c b h2 with hl | hr
      · left; simp [List.isPrefixOf, h1, hl]
      · right; simp [hr]

theorem strContains_append_left_disjoint {n : List Char} (hn : n ≠ [])
    (s1 s2 : List Char) (h : ∀ c ∈ s1, ∀ d ∈ n, c ≠ d) :
    strContains (s1 ++ s2) n = strContains s2 n := by
  induction s1 with
  | nil => simp
  | cons c t ih =>
    cases n with
    | nil => exact absurd rfl hn
    | cons n0 n' =>
      have hne : (n0 == c) = false := by
        have hcd := h c (by simp) n0 (by simp)
        simp only [beq_eq_false_iff_ne, ne_eq]
        exact fun e => hcd e.symm
      simp only [List.cons_append, strContains, List.isPrefixOf, hne,
        Bool.false_and, Bool.false_or]
      exact ih (fun x hx d hd => h x (by simp [hx]) d hd)

theorem strContains_cons_clean {n : List Char} (hn : n ≠ []) {g0 : Char}
    (hg : ∀ d ∈ n, g0 ≠ d) (rest : List Char) :
    strContains (g0 :: rest) n = strContains rest n := by
  cases n with
  | nil => exact absurd rfl hn
  | cons n0 n' =>
    have hne : (n0 == g0) = false := by
      have hcd := hg n0 (by simp)
      simp only [beq_eq_false_iff_ne, ne_eq]
      exact fun e => hcd e.symm
    simp [strContains, List.isPrefixOf, hne]

theorem strContains_append_cons_eq {n : List Char} (_hn : n ≠ [])
    {g0 : Char} (hg : ∀ d ∈ n, g0 ≠ d) :
    ∀ (a rest : List Char), strContains a n = false →
      strContains (a ++ g0 :: rest) n = strContains (g0 :: rest) n := by
  intro a
  induction a with
  | nil => intro rest _; simp
  | cons c t ih =>
    intro rest h
    have h' : n.isPrefixOf (c :: t) = false ∧ strContains t n = false := by
      simpa [strContains, Bool.or_eq_false_iff] using h
    have hp : n.isPrefixOf (c :: t ++ g0 :: rest) = false := by
      by_contra hx
      have hx' : n.isPrefixOf ((c :: t) ++ g0 :: rest) = true := by
        cases hb : n.isPrefixOf (c :: t ++ g0 :: rest) with
        | true => rfl
        | false => exact absurd hb hx
      rcases isPrefixOf_append_cons (c :: t) g0 rest hx' with hl | hr
      · rw [h'.1] at hl; exact Bool.false_ne_true hl
      · exact hg g0 hr rfl
    simp only [List.cons_append, strContains]
    rw [show c :: (t ++ g0 :: rest) = c :: t ++ g0 :: rest from rfl, hp]
    simp only [Bool.false_or]
    exact ih rest h'.2

theorem intercalate_cons₂ (sep e1 e2 : List Char) (cs : List (List Char)) :
    List.intercalate sep (e1 :: e2 :: cs)
      = e1 ++ sep ++ List.intercalate sep (e2 :: cs) := by
  simp [List.intercalate, List.intersperse_cons_cons, List.append_assoc]

/-- No element of `cs` contains `LGTM`, hence neither does their
blank-line-separated join. -/
theorem strContains_intercalate_lgtm :
    ∀ (cs : List (List Char)), (∀ e ∈ cs, strContains e lgtm = false) →
      strContains (List.intercalate blankSep cs) lgtm = false := by
  intro cs
  induction cs with
  | nil => intro _; decide
  | cons e cs ih =>
    intro h
    cases cs with
    | nil => simpa [List.intercalate] using h e (by simp)
    | cons e2 cs' =>
      rw [intercalate_cons₂]
      have h1 : strContains e lgtm = false := h e (by simp)
      have h2 : strContains (List.intercalate blankSep (e2 :: cs')) lgtm = false :=
        ih (fun x hx => h x (by simp [hx]))
      have hsh : e ++ blankSep ++ List.intercalate blankSep (e2 :: cs')
          = e ++ '\n' :: ('\n' :: List.intercalate blankSep (e2 :: cs')) := by
        simp [blankSep]
      rw [hsh, strContains_append_cons_eq (by decide) (by decide) e _ h1,
        strContains_cons_clean (by decide) (by decide),
        strContains_cons_clean (by decide) (by decide)]
      exact h2

/-! ## The hunk labels do not contain the characters of `LGTM` -/

theorem decDigit_mem (n : Nat) : decDigit n ∈ "0123456789?".toList := by
  unfold decDigit
  split_ifs <;> decide

theorem natToStrAux_digits :
    ∀ (fuel n : Nat) (acc : List Char),
      (∀ c ∈ acc, c ∈ "0123456789?".toList) →
      ∀ c ∈ natToStrAux fuel n acc, c ∈ "0123456789?".toList := by
  intro fuel
  induction fuel with
  | zero => intro n acc h; simpa [natToStrAux] using h
  | succ f ih =>
    intro n acc h
    rw [natToStrAux]
    split
    · intro c hc
      rcases List.mem_cons.mp hc with h1 | h1
      · exact h1 ▸ decDigit_mem n
      · exact h c h1
    · refine ih _ _ ?_
      intro c hc
      rcases List.mem_cons.mp hc with h1 | h1
      · exact h1 ▸ decDigit_mem (n % 10)
      · exact h c h1

theorem natToStr_clean (i : Nat) : ∀ c ∈ natToStr i, ∀ d ∈ lgtm, c ≠ d := by
  intro c hc d hd
  have h1 : c ∈ "0123456789?".toList :=
    natToStrAux_digits (i + 1) i [] (by simp) c hc
  exact (show ∀ x ∈ "0123456789?".toList, ∀ d ∈ lgtm, x ≠ d by decide) c h1 d hd

theorem hunkTag_clean (i : Nat) : ∀ c ∈ hunkTag i, ∀ d ∈ lgtm, c ≠ d := by
  intro c hc d hd
  unfold hunkTag at hc
  rcases List.mem_append.mp hc with h1 | h1
  · rcases List.mem_append.mp h1 with h2 | h2
    · exact (show ∀ x ∈ "**Hunk ".toList, ∀ d ∈ lgtm, x ≠ d by decide) c h2 d hd
    · exact natToStr_clean i c h2 d hd
  · exact (show ∀ x ∈ ":**\n".toList, ∀ d ∈ lgtm, x ≠ d by decide) c h1 d hd

/-- A labelled flagged review contains `LGTM` exactly when the review
itself does. -/
theorem comment_lgtm_free {review : List Char} (i : Nat)
    (h : strContains review lgtm = false) :
    strContains (hunkTag i ++ review) lgtm = false := by
  rw [strContains_append_left_disjoint (by decide) _ _ (hunkTag_clean i)]
  exact h

/-! ## The hunk loop as a filterMap -/

theorem foldl_if_append {α β : Type} (p : α → Bool) (g : α → β) :
    ∀ (l : List α) (acc : List β),
      l.foldl (fun a x => if p x then a else a ++ [g x]) acc
        = acc ++ l.filterMap (fun x => if p x then none else some (g x)) := by
  intro l
  induction l with
  | nil => intro acc; simp
  | cons x t ih =>
    intro acc
    cases hp : p x <;> simp [hp, ih]

/-- The flagged labelled entries, in hunk order. -/
def flaggedEntries (llm : List Char → Bool → List Char)
    (hunks : List (List Char)) : List (List Char) :=
  hunks.enum.filterMap
    (fun p => if verdictIsClean (llm p.2 true) then none
      else some (hunkTag (p.1 + 1) ++ llm p.2 true))

theorem file_comments_eq (llm : List Char → Bool → List Char)
    (hunks : List (List Char)) :
    file_comments llm hunks = flaggedEntries llm hunks := by
  have h := foldl_if_append
    (fun q : Nat × List Char => verdictIsClean (llm q.2 true))
    (fun q : Nat × List Char => hunkTag (q.1 + 1) ++ llm q.2 true)
    hunks.enum []
  simpa [file_comments, flaggedEntries] using h

theorem file_comments_empty_iff (llm : List Char → Bool → List Char)
    (hunks : List (List Char)) :
    file_comments llm hunks = []
      ↔ ∀ hk ∈ hunks, verdictIsClean (llm hk true) = true := by
  rw [file_comments_eq]
  unfold flaggedEntries
  rw [List.filterMap_eq_nil_iff]
  constructor
  · intro h x hx
    have hx' : x ∈ List.map Prod.snd hunks.enum := by
      rw [List.enum_map_snd]; exact hx
    obtain ⟨p, hp, hpx⟩ := List.mem_map.mp hx'
    have hnone := h p hp
    by_cases hv : verdictIsClean (llm p.2 true) = true
    · rw [← hpx]; exact hv
    · rw [if_neg hv] at hnone; simp at hnone
  · intro h p hp
    have hmem : p.2 ∈ hunks := by
      rw [← List.enum_map_snd hunks]
      exact List.mem_map_of_mem _ hp
    rw [if_pos (h p.2 hmem)]

theorem file_comments_ne_of_flagged {llm : List Char → Bool → List Char}
    {hunks : List (List Char)}
    (h : ∃ hk ∈ hunks, verdictIsClean (llm hk true) = false) :
    file_comments llm hunks ≠ [] := by
  intro he
  obtain ⟨hk, hmem, hflag⟩ := h
  have hcl := (file_comments_empty_iff llm hunks).mp he hk hmem
  rw [hcl] at hflag
  simp at hflag

theorem file_comments_lgtm_free (llm : List Char → Bool → List Char)
    (hunks : List (List Char)) :
    ∀ e ∈ file_comments llm hunks, strContains e lgtm = false := by
  intro e he
  rw [file_comments_eq] at he
  obtain ⟨p, _, hpe⟩ := List.mem_filterMap.mp he
  by_cases hv : verdictIsClean (llm p.2 true) = true
  · rw [if_pos hv] at hpe; simp at hpe
  · rw [if_neg hv] at hpe
    have hrev : strContains (llm p.2 true) lgtm = false := by
      have := Bool.eq_false_iff.mpr hv
      simpa [verdictIsClean] using this
    have he' : hunkTag (p.1 + 1) ++ llm p.2 true = e := by
      simpa using hpe
    rw [← he']
    exact comment_lgtm_free (p.1 + 1) hrev

theorem finalReview_of_flagged {llm : List Char → Bool → List Char}
    {hunks : List (List Char)} (hne : file_comments llm hunks ≠ []) :
    finalReviewOfHunks llm hunks
        = List.intercalate blankSep (file_comments llm hunks) ∧
      strContains (finalReviewOfHunks llm hunks) lgtm = false := by
  have he : finalReviewOfHunks llm hunks
      = List.intercalate blankSep (file_comments llm hunks) := by
    unfold finalReviewOfHunks
    rw [if_neg (by simpa [List.isEmpty_iff] using hne)]
  refine ⟨he, ?_⟩
  rw [he]
  exact strContains_intercalate_lgtm _ (file_comments_lgtm_free llm hunks)

theorem finalReview_of_all_clean {llm : List Char → Bool → List Char}
    {hunks : List (List Char)}
    (h : ∀ hk ∈ hunks, verdictIsClean (llm hk true) = true) :
    finalReviewOfHunks llm hunks = lgtm := by
  unfold finalReviewOfHunks
  rw [(file_comments_empty_iff llm hunks).mpr h]
  simp

/-! ## Substring characterisation of the verdict -/

theorem isPrefixOf_iff_exists :
    ∀ (n s : List Char), n.isPrefixOf s = true ↔ ∃ v, s = n ++ v := by
  intro n
  induction n with
  | nil => intro s; simp [List.isPrefixOf]
  | cons n0 n' ih =>
    intro s
    cases s with
    | nil => simp [List.isPrefixOf]
    | cons s0 t =>
      simp only [List.isPrefixOf, Bool.and_eq_true, beq_iff_eq]
      constructor
      · rintro ⟨h1, h2⟩
        obtain ⟨v, hv⟩ := (ih t).mp h2
        exact ⟨v, by simp [h1, hv]⟩
      · rintro ⟨v, hv⟩
        simp only [List.cons_append, List.cons.injEq] at hv
        exact ⟨hv.1.symm, (ih t).mpr ⟨v, hv.2⟩⟩

theorem strContains_iff_exists :
    ∀ (s n : List Char), strContains s n = true ↔ ∃ u v, s = u ++ n ++ v := by
  intro s n
  induction s with
  | nil =>
    simp only [strContains]
    constructor
    · intro h
      have hn : n = [] := by simpa [List.isEmpty_iff] using h
      exact ⟨[], [], by simp [hn]⟩
    · rintro ⟨u, v, huv⟩
      have := huv.symm
      simp only [List.append_eq_nil] at this
      simp [this.1.2]
  | cons c t ih =>
    simp only [strContains, Bool.or_eq_true]
    constructor
    · rintro (hp | hc)
      · obtain ⟨v, hv⟩ := (isPrefixOf_iff_exists n (c :: t)).mp hp
        exact ⟨[], v, by simp [hv]⟩
      · obtain ⟨u, v, huv⟩ := ih.mp hc
        exact ⟨c :: u, v, by simp [huv]⟩
    · rintro ⟨u, v, huv⟩
      cases u with
      | nil =>
        left
        exact (isPrefixOf_iff_exists n (c :: t)).mpr ⟨v, by simpa using huv⟩
      | cons u0 u' =>
        right
        apply ih.mpr
        refine ⟨u', v, ?_⟩
        simp only [List.cons_append, List.cons.injEq] at huv
        exact huv.2

/-- The error path of `ask_llm` never lets an `LGTM` occurrence hide in the `"LLM Error: "`
prefix nor straddle its boundary: the error text contains `LGTM` exactly
when the exception message does. -/
theorem llm_error_contains (msg : List Char) :
    strContains ("LLM Error: ".toList ++ msg) lgtm = strContains msg lgtm := by
  have h0 : strContains "LLM Error".toList lgtm = false := by decide
  have h1 : strContains ("LLM Error".toList ++ ':' :: ' ' :: msg) lgtm
      = strContains (':' :: ' ' :: msg) lgtm :=
    strContains_append_cons_eq (by decide) (by decide) _ _ h0
  have h2 : strContains (':' :: ' ' :: msg) lgtm
      = strContains (' ' :: msg) lgtm :=
    strContains_cons_clean (by decide) (by decide) _
  have h3 : strContains (' ' :: msg) lgtm = strContains msg lgtm :=
    strContains_cons_clean (by decide) (by decide) _
  calc strContains ("LLM Error: ".toList ++ msg) lgtm
      = strContains ("LLM Error".toList ++ ':' :: ' ' :: msg) lgtm := rfl
    _ = strContains (':' :: ' ' :: msg) lgtm := h1
    _ = strContains (' ' :: msg) lgtm := h2
    _ = strContains msg lgtm := h3

/-! ## Concrete inputs used by counterexamples and witnesses -/

/-- A text whose only per-line hunk-header line is `@@ c @@`, but on which
the multiline pattern also matches once spanning the first two lines. -/
def spanningDiff : List Char := "@@ a\n@@ b\n@@ c @@\n".toList

/-- A well-formed two-hunk diff. -/
def twoHunkDiff : List Char :=
  "hdr\n@@ -1 +1 @@\n-a\n+b\n@@ -5 +6 @@\n+c\n".toList

/-- A well-formed one-hunk diff with a leading file header. -/
def oneHunkDiff : List Char := "hdr\n@@ -1 +1 @@\n-x\n".toList

/-- A diff text with no hunk marker at all. -/
def noHunkDiff : List Char := "hello\n".toList

/-- An oracle that flags every unit. -/
def constBad : List Char → Bool → List Char :=
  fun _ _ => "- possible bug".toList

/-- A run-level oracle that approves every unit. -/
def constGoodR : List Char → List Char → Bool → List Char :=
  fun _ _ _ => lgtm

/-- A constant diff supplier. -/
def constDiff : List Char → List Char := fun _ => "x".toList

/-! ## Claim theorems -/

/-- C1 (counterexample): on `spanningDiff` exactly one line matches the
per-line pattern `^@@ ... @@`, yet `split_into_hunks` produces two units,
because the `\s` of the actual pattern matches a newline and one match
spans two lines.  The claim "N hunk-header lines give exactly N units" is
therefore false as stated. -/
theorem hunk_split_per_line_count_cex :
    hunkHeaderLineCount spanningDiff = 1 ∧
    (split_into_hunks spanningDiff).length = 2 := by decide

/-- Witness for `hunk_split_lossless` at the two-hunk diff. -/
theorem hunk_split_lossless_witness :
    1 ≤ countMatchesPy twoHunkDiff ∧
    ((split_into_hunks twoHunkDiff).length = countMatchesPy twoHunkDiff ∧
      ∃ pre m r, findMatch twoHunkDiff true = some (pre, m, r) ∧
        twoHunkDiff = pre ++ m ++ r ∧
        ((split_into_hunks twoHunkDiff).map
            (fun u => u.drop (pre.length + 1))).flatten
          = twoHunkDiff.drop pre.length) :=
  ⟨by decide, hunk_split_lossless twoHunkDiff (by decide)⟩

/-- C9 (counterexample): for the one-hunk diff with a leading header the
single produced unit is not textually identical to the input — the
assembly inserts an extra newline between the leading segment and the
hunk header. -/
theorem single_hunk_unit_cex :
    countMatchesPy oneHunkDiff = 1 ∧
    hunkHeaderLineCount oneHunkDiff = 1 ∧
    split_into_hunks oneHunkDiff = ["hdr\n\n@@ -1 +1 @@\n-x\n".toList] ∧
    split_into_hunks oneHunkDiff ≠ [oneHunkDiff] := by decide

/-- Witness for `single_hunk_unit` at the one-hunk diff. -/
theorem single_hunk_unit_witness :
    countMatchesPy oneHunkDiff = 1 ∧
    ∃ pre m r, findMatch oneHunkDiff true = some (pre, m, r) ∧
      oneHunkDiff = pre ++ m ++ r ∧
      split_into_hunks oneHunkDiff = [pre ++ '\n' :: (m ++ r)] :=
  ⟨by decide, single_hunk_unit oneHunkDiff (by decide)⟩

/-- C2 (amended): on a diff with no match of the hunk pattern the splitter
returns the whole text as its single fallback unit, and when such a diff
exceeds the size threshold the orchestrator issues exactly one review call
over the whole text — through the hunk loop, hence with the partial-review
flag set — and the file's verdict equals that call's verdict (never a
vacuous CLEAN). -/
theorem zero_hunk_fallback (T : Nat) (llm : List Char → Bool → List Char)
    (raw : List Char) (h0 : countMatchesPy raw = 0) (h1 : T < raw.length) :
    split_into_hunks raw = [raw] ∧
    reviewFileCalls T raw = [(raw, true)] ∧
    verdictIsClean (reviewFile T llm raw) = verdictIsClean (llm raw true) := by
  have hnone : findMatch raw true = none := countMatchesPy_eq_zero_iff.mp h0
  have hsp : split_into_hunks raw = [raw] := split_into_hunks_of_none hnone
  refine ⟨hsp, ?_, ?_⟩
  · unfold reviewFileCalls
    rw [if_pos h1, hsp]
    simp
  · have hrf : reviewFile T llm raw = finalReviewOfHunks llm [raw] := by
      unfold reviewFile
      rw [if_pos h1, hsp]
    rw [hrf]
    cases hv : verdictIsClean (llm raw true) with
    | true =>
      rw [finalReview_of_all_clean (by
        intro hk hmem
        rw [List.mem_singleton] at hmem
        rw [hmem]
        exact hv)]
      decide
    | false =>
      have hne : file_comments llm [raw] ≠ [] :=
        file_comments_ne_of_flagged ⟨raw, by simp, hv⟩
      exact (finalReview_of_flagged hne).2

/-- C2 (counterexample): for a no-hunk diff over the threshold the single
call issued carries `is_partial = true`, not the `false` flag of a
WHOLE-FILE review. -/
theorem zero_hunk_fallback_cex :
    countMatchesPy noHunkDiff = 0 ∧
    reviewFileCalls 0 noHunkDiff = [(noHunkDiff, true)] ∧
    reviewFileCalls 0 noHunkDiff ≠ [(noHunkDiff, false)] := by decide

/-- Witness for `zero_hunk_fallback`. -/
theorem zero_hunk_fallback_witness :
    countMatchesPy noHunkDiff = 0 ∧ 0 < noHunkDiff.length ∧
    (split_into_hunks noHunkDiff = [noHunkDiff] ∧
      reviewFileCalls 0 noHunkDiff = [(noHunkDiff, true)] ∧
      verdictIsClean (reviewFile 0 constBad noHunkDiff)
        = verdictIsClean (constBad noHunkDiff true)) :=
  ⟨by decide, by decide,
    zero_hunk_fallback 0 constBad noHunkDiff (by decide) (by decide)⟩

/-- C3: in the decomposed path the merged verdict is CLEAN iff every
unit's verdict is CLEAN, and when some unit is FLAGGED the merged text is
exactly the flagged labelled entries joined by the blank-line separator,
in hunk order. -/
theorem merged_verdict_clean_iff (T : Nat) (llm : List Char → Bool → List Char)
    (raw : List Char) (h : T < raw.length) :
    (verdictIsClean (reviewFile T llm raw) = true ↔
      ∀ hk ∈ split_into_hunks raw, verdictIsClean (llm hk true) = true) ∧
    ((∃ hk ∈ split_into_hunks raw, verdictIsClean (llm hk true) = false) →
      reviewFile T llm raw
        = List.intercalate blankSep
            (flaggedEntries llm (split_into_hunks raw))) := by
  have hrf : reviewFile T llm raw
      = finalReviewOfHunks llm (split_into_hunks raw) := by
    unfold reviewFile
    rw [if_pos h]
  constructor
  · constructor
    · intro hclean hk hmem
      cases hb : verdictIsClean (llm hk true) with
      | true => rfl
      | false =>
        have hne := file_comments_ne_of_flagged ⟨hk, hmem, hb⟩
        have hfree := (finalReview_of_flagged hne).2
        rw [hrf] at hclean
        unfold verdictIsClean at hclean
        exact absurd (hfree.symm.trans hclean) (by simp)
    · intro hall
      rw [hrf, finalReview_of_all_clean hall]
      decide
  · intro hex
    have hne := file_comments_ne_of_flagged hex
    rw [hrf, (finalReview_of_flagged hne).1, file_comments_eq]

/-- Witness for `merged_verdict_clean_iff`. -/
theorem merged_verdict_clean_iff_witness :
    0 < oneHunkDiff.length ∧
    ((verdictIsClean (reviewFile 0 constBad oneHunkDiff) = true ↔
        ∀ hk ∈ split_into_hunks oneHunkDiff,
          verdictIsClean (constBad hk true) = true) ∧
      ((∃ hk ∈ split_into_hunks oneHunkDiff,
          verdictIsClean (constBad hk true) = false) →
        reviewFile 0 constBad oneHunkDiff
          = List.intercalate blankSep
              (flaggedEntries constBad (split_into_hunks oneHunkDiff)))) :=
  ⟨by decide, merged_verdict_clean_iff 0 constBad oneHunkDiff (by decide)⟩

/-- C4: the CLEAN test is a pure substring test for `LGTM` — it holds iff
the text decomposes around a literal `LGTM` occurrence, it accepts both
documented example responses, and it is not an exact-match test. -/
theorem lgtm_detection_substring :
    (∀ s : List Char, verdictIsClean s = true ↔ ∃ u v, s = u ++ lgtm ++ v) ∧
    verdictIsClean "Looks fine. LGTM".toList = true ∧
    verdictIsClean "LGTM-adjacent but actually broken: off-by-one".toList
      = true ∧
    ¬ (∀ s : List Char, verdictIsClean s = true → s = lgtm) := by
  refine ⟨fun s => strContains_iff_exists s lgtm, by decide, by decide, ?_⟩
  intro h
  exact absurd (h "Looks fine. LGTM".toList (by decide)) (by decide)

/-- Witness instantiating `lgtm_detection_substring` at a concrete text. -/
theorem lgtm_detection_substring_witness :
    verdictIsClean "abc LGTM def".toList = true ↔
      ∃ u v, "abc LGTM def".toList = u ++ lgtm ++ v :=
  lgtm_detection_substring.1 "abc LGTM def".toList

/-- C5 (amended): every caught inference failure whose exception text does
not itself contain `LGTM` yields a FLAGGED verdict whose text carries the
`"LLM Error: "` prefix identifying it as an infrastructure error; the
failure is returned as text, never propagated. -/
theorem llm_failure_flagged (msg : List Char)
    (h : strContains msg lgtm = false) :
    verdictIsClean (ask_llm (LLMOutcome.error msg)) = false ∧
    ∃ rest, ask_llm (LLMOutcome.error msg) = "LLM Error: ".toList ++ rest := by
  constructor
  · show strContains ("LLM Error: ".toList ++ msg) lgtm = false
    rw [llm_error_contains]
    exact h
  · exact ⟨msg, rfl⟩

/-- C5 (counterexample): a failure whose exception text contains `LGTM`
(here an HTTP error naming the endpoint URL) is classified CLEAN, so the
claim "every failure yields FLAGGED" is false as stated. -/
theorem llm_failure_flagged_cex :
    verdictIsClean
      (ask_llm (LLMOutcome.error "HTTPError at http://host/LGTM/api".toList))
      = true := by decide

/-- Witness for `llm_failure_flagged`. -/
theorem llm_failure_flagged_witness :
    strContains "connection refused".toList lgtm = false ∧
    (verdictIsClean (ask_llm (LLMOutcome.error "connection refused".toList))
        = false ∧
      ∃ rest, ask_llm (LLMOutcome.error "connection refused".toList)
        = "LLM Error: ".toList ++ rest) :=
  ⟨by decide, llm_failure_flagged "connection refused".toList (by decide)⟩

/-- C6: a diff of length at most the threshold is reviewed by exactly one
call over the whole text with the partial flag off and that call's text is
the file's review; a diff of length threshold + 1 triggers hunk
decomposition (one partial-flagged call per unit of the splitter). -/
theorem threshold_boundary (T : Nat) (llm : List Char → Bool → List Char)
    (raw : List Char) :
    (raw.length ≤ T →
      reviewFileCalls T raw = [(raw, false)] ∧
      reviewFile T llm raw = llm raw false) ∧
    (raw.length = T + 1 →
      reviewFileCalls T raw = (split_into_hunks raw).map (fun hk => (hk, true)) ∧
      reviewFile T llm raw = finalReviewOfHunks llm (split_into_hunks raw)) := by
  constructor
  · intro hle
    have hnot : ¬ (T < raw.length) := by omega
    unfold reviewFileCalls reviewFile
    rw [if_neg hnot, if_neg hnot]
    exact ⟨rfl, rfl⟩
  · intro heq
    have hlt : T < raw.length := by omega
    unfold reviewFileCalls reviewFile
    rw [if_pos hlt, if_pos hlt]
    exact ⟨rfl, rfl⟩

/-- Witness for `threshold_boundary` at lengths T and T + 1. -/
theorem threshold_boundary_witness :
    ("abcd".toList.length ≤ 4 ∧
      (reviewFileCalls 4 "abcd".toList = [("abcd".toList, false)] ∧
        reviewFile 4 constBad "abcd".toList = constBad "abcd".toList false)) ∧
    ("abcd".toList.length = 3 + 1 ∧
      (reviewFileCalls 3 "abcd".toList
          = (split_into_hunks "abcd".toList).map (fun hk => (hk, true)) ∧
        reviewFile 3 constBad "abcd".toList
          = finalReviewOfHunks constBad (split_into_hunks "abcd".toList))) :=
  ⟨⟨by decide, (threshold_boundary 4 constBad "abcd".toList).1 (by decide)⟩,
    ⟨by decide, (threshold_boundary 3 constBad "abcd".toList).2 (by decide)⟩⟩

/-- C7: the progress update of the decomposed path (line 133) references
the name `filename`, which is bound in no enclosing scope of reviewer.py
(and is no Python builtin) — the loop variable is `file_name` — so the
decomposed path raises `NameError` before its first per-hunk review call. -/
theorem progress_update_out_of_scope :
    "filename" ∈ hunkProgressUpdateNames ∧
    "filename" ∉ generateReportScopeNames ∧
    "file_name" ∈ generateReportScopeNames := by decide

/-- C10: whenever at least one unit of the decomposed path is FLAGGED, the
merged commentary never contains `LGTM` — the flagged reviews lack it and
the labels and separators cannot introduce it — so the file-level
substring check classifies the merged result FLAGGED, consistently with
the unit verdicts. -/
theorem flagged_merge_lgtm_free (T : Nat) (llm : List Char → Bool → List Char)
    (raw : List Char) (h : T < raw.length)
    (hex : ∃ hk ∈ split_into_hunks raw, verdictIsClean (llm hk true) = false) :
    verdictIsClean (reviewFile T llm raw) = false := by
  have hrf : reviewFile T llm raw
      = finalReviewOfHunks llm (split_into_hunks raw) := by
    unfold reviewFile
    rw [if_pos h]
  have hne := file_comments_ne_of_flagged hex
  rw [hrf]
  exact (finalReview_of_flagged hne).2

/-- Witness for `flagged_merge_lgtm_free`. -/
theorem flagged_merge_lgtm_free_witness :
    0 < twoHunkDiff.length ∧
    (∃ hk ∈ split_into_hunks twoHunkDiff,
      verdictIsClean (constBad hk true) = false) ∧
    verdictIsClean (reviewFile 0 constBad twoHunkDiff) = false :=
  ⟨by decide,
    ⟨(split_into_hunks twoHunkDiff).headD [], by decide, by decide⟩,
    flagged_merge_lgtm_free 0 constBad twoHunkDiff (by decide)
      ⟨(split_into_hunks twoHunkDiff).headD [], by decide, by decide⟩⟩

/-- C8: a report line is appended for a file iff the file's merged review
is FLAGGED, the lines appear in processing order (the filterMap keeps the
files' order), no artifact is written iff the report is empty, and the
empty report takes the distinct "no issues" notification path. -/
theorem report_entries_iff_flagged (T : Nat)
    (llm : List Char → List Char → Bool → List Char)
    (diffOf : List Char → List Char) (files : List (List Char))
    (src : List Char) :
    report_lines T llm diffOf files =
      files.filterMap (fun f =>
        if verdictIsClean (reviewFile T (llm f) (diffOf f)) then none
        else some (reportEntry f (reviewFile T (llm f) (diffOf f)))) ∧
    (save_report src (report_lines T llm diffOf files) = none ↔
      report_lines T llm diffOf files = []) ∧
    (report_lines T llm diffOf files = [] →
      runEndMessage (report_lines T llm diffOf files)
        = " No issues found. The code looks great!".toList) := by
  refine ⟨?_, ?_, ?_⟩
  · have h := foldl_if_append
      (fun f => verdictIsClean (reviewFile T (llm f) (diffOf f)))
      (fun f => reportEntry f (reviewFile T (llm f) (diffOf f))) files []
    simpa [report_lines] using h
  · unfold save_report
    constructor
    · intro h
      by_cases he : (report_lines T llm diffOf files).isEmpty
      · simpa [List.isEmpty_iff] using he
      · rw [if_neg he] at h
        simp at h
    · intro h
      rw [h]
      simp
  · intro h
    rw [h]
    simp [runEndMessage]

/-- Witness instantiating `report_entries_iff_flagged` on a concrete run. -/
theorem report_entries_iff_flagged_witness :
    save_report "b".toList (report_lines 9 constGoodR constDiff ["a.py".toList])
        = none ↔
      report_lines 9 constGoodR constDiff ["a.py".toList] = [] :=
  (report_entries_iff_flagged 9 constGoodR constDiff ["a.py".toList]
    "b".toList).2.1


end Reviewer
